import Mathlib

/-!
Formal model of the NeuroKit2 signal core:
`neurokit2/signal/signal_interpolate.py` and `neurokit2/signal/signal_rate.py`.

Real-valued samples are modelled as rationals.  The scipy interpolation
kernels the code delegates to (`scipy.interpolate.interp1d`,
`scipy.interpolate.PchipInterpolator`) are modelled from their documented
behaviour: the out-of-range fill logic of `interp1d` and the piecewise cubic
Hermite evaluation of `PchipInterpolator` are embedded concretely, while the
in-range mathematics of each `interp1d` kind (library-internal spline and
hold kernels, on whose in-range values no verified property depends) is a
parameter `inR` of the model, so every theorem holds for all of them.
-/

namespace NeuroKit

/-- Errors surfaced by `signal_interpolate`: `lengthMismatch` is the
`ValueError` raised by the sanity check at the top of the function (the
spec's `LengthMismatchError`); `typeError` models the Python `TypeError`
raised when `len(x_new)` is evaluated on the default `x_new = None`;
`constructionError` models any error raised while building the scipy
interpolant (the spec's `InterpolationConstructionError`). -/
inductive NKError
  | lengthMismatch
  | typeError
  | constructionError
  deriving DecidableEq

/-- The `x_new` argument of `signal_interpolate`: the Python default `None`,
an integer count, or an explicit sequence of target positions. -/
inductive XNew
  | none
  | count (n : ℕ)
  | positions (xs : List ℚ)
  deriving DecidableEq

/-- The `method` argument: a string tag, or an integer spline order passed
through to `interp1d` as its `kind`. -/
inductive Method
  | str (s : String)
  | order (k : ℕ)
  deriving DecidableEq

/-- The interpolation kinds accepted by `scipy.interpolate.interp1d`:
the hold and linear kinds plus splines of a given order (the string kinds
`zero`, `slinear`, `quadratic`, `cubic` are spline orders 0–3). -/
inductive I1Kind
  | linear
  | nearest
  | previous
  | next
  | spline (k : ℕ)
  deriving DecidableEq

/-- Mapping from an `interp1d` `kind` string to the kind it selects;
`Option.none` for a string `interp1d` rejects at construction. -/
def kindOfStr (s : String) : Option I1Kind :=
  if s = "linear" then Option.some I1Kind.linear
  else if s = "nearest" then Option.some I1Kind.nearest
  else if s = "previous" then Option.some I1Kind.previous
  else if s = "next" then Option.some I1Kind.next
  else if s = "zero" then Option.some (I1Kind.spline 0)
  else if s = "slinear" then Option.some (I1Kind.spline 1)
  else if s = "quadratic" then Option.some (I1Kind.spline 2)
  else if s = "cubic" then Option.some (I1Kind.spline 3)
  else Option.none

/-- Minimum number of sample points `interp1d` accepts for each kind
(`minval` in the scipy source): 2 for linear, 1 for the hold kinds, and
`k + 1` for a spline of order `k` — so a spline order `≥` the sample count
fails at construction. -/
def I1Kind.minval : I1Kind → ℕ
  | I1Kind.linear => 2
  | I1Kind.nearest => 1
  | I1Kind.previous => 1
  | I1Kind.next => 1
  | I1Kind.spline k => k + 1

/-- Smallest element of a list of rationals (0 for the empty list, which the
kernels never see: construction requires at least one point). -/
def listMin : List ℚ → ℚ
  | [] => 0
  | a :: t => t.foldl min a

/-- Largest element of a list of rationals (0 for the empty list). -/
def listMax : List ℚ → ℚ
  | [] => 0
  | a :: t => t.foldl max a

/-- First element of a list of rationals, `xs[0]` (0 for the empty list,
on which the source would raise an `IndexError`; unreachable wherever the
model uses it). -/
def headEl : List ℚ → ℚ
  | [] => 0
  | a :: _ => a

/-- Last element of a list of rationals, `xs[-1]` (0 for the empty list). -/
def lastEl : List ℚ → ℚ
  | [] => 0
  | [a] => a
  | _ :: b :: t => lastEl (b :: t)

/-- Whether a list of abscissae is strictly increasing, as
`PchipInterpolator` requires of `x`. -/
def strictIncr : List ℚ → Bool
  | [] => true
  | [_] => true
  | a :: b :: t => decide (a < b) && strictIncr (b :: t)

/-- ASCII lower-casing of a method string, Python's `method.lower()`. -/
def lowerStr (s : String) : String :=
  String.mk (s.data.map Char.toLower)

/-- The sign of a rational, as `np.sign`: 1, -1 or 0. -/
def qsign (q : ℚ) : ℤ :=
  if 0 < q then 1 else if q < 0 then -1 else 0

/-- Interval width `h_k = x[k+1] - x[k]`. -/
def hdiff (x : List ℚ) (k : ℕ) : ℚ :=
  x.getD (k + 1) 0 - x.getD k 0

/-- Secant slope `m_k = (y[k+1] - y[k]) / h_k`. -/
def mslope (x y : List ℚ) (k : ℕ) : ℚ :=
  (y.getD (k + 1) 0 - y.getD k 0) / hdiff x k

/-- The one-sided three-point endpoint derivative of `PchipInterpolator`
with the Fritsch–Carlson shape limiter (`_edge_case` in scipy): the
non-centered estimate, zeroed when its sign disagrees with the boundary
slope, and capped at three times the boundary slope when the two slopes
disagree in sign. -/
def edgeCase (h0 h1 m0 m1 : ℚ) : ℚ :=
  let d := ((2 * h0 + h1) * m0 - h0 * m1) / (h0 + h1)
  if qsign d ≠ qsign m0 then 0
  else if qsign m0 ≠ qsign m1 ∧ 3 * |m0| < |d| then 3 * m0
  else d

/-- The knot derivatives of `PchipInterpolator` (`_find_derivatives` in
scipy): for two points the secant slope, at the boundary the limited
three-point estimate, and in the interior zero when the adjacent secant
slopes vanish or disagree in sign, otherwise the weighted harmonic mean
that makes the interpolant monotonicity-preserving. -/
def pchipDeriv (x y : List ℚ) (i : ℕ) : ℚ :=
  let n := x.length
  if n = 2 then mslope x y 0
  else if i = 0 then edgeCase (hdiff x 0) (hdiff x 1) (mslope x y 0) (mslope x y 1)
  else if i = n - 1 then
    edgeCase (hdiff x (n - 2)) (hdiff x (n - 3)) (mslope x y (n - 2)) (mslope x y (n - 3))
  else
    let m0 := mslope x y (i - 1)
    let m1 := mslope x y i
    if qsign m0 ≠ qsign m1 ∨ m0 = 0 ∨ m1 = 0 then 0
    else
      let w1 := 2 * hdiff x i + hdiff x (i - 1)
      let w2 := hdiff x i + 2 * hdiff x (i - 1)
      (w1 + w2) / (w1 / m0 + w2 / m1)

/-- Index of the polynomial piece scipy's piecewise-polynomial evaluation
selects at `t` with `extrapolate=True`: the last interval whose left
breakpoint is `≤ t`, clamped into `[0, x.length - 2]` — queries left of the
first breakpoint use piece 0 and queries right of the last breakpoint use
the final piece. -/
def findInterval (x : List ℚ) (t : ℚ) : ℕ :=
  min ((x.takeWhile (fun a => decide (a ≤ t))).length - 1) (x.length - 2)

/-- The cubic Hermite polynomial of piece `k` of the PCHIP interpolant, in
the local variable `s = t - x[k]`, built from the knot values, the secant
slope and the PCHIP knot derivatives — exactly the four coefficients scipy
stores per piece. -/
def hermiteSegment (x y : List ℚ) (k : ℕ) (t : ℚ) : ℚ :=
  let h := hdiff x k
  let m := mslope x y k
  let dk := pchipDeriv x y k
  let dk1 := pchipDeriv x y (k + 1)
  let s := t - x.getD k 0
  y.getD k 0 + dk * s + ((3 * m - 2 * dk - dk1) / h) * s ^ 2
    + ((dk + dk1 - 2 * m) / h ^ 2) * s ^ 3

/-- Evaluation of `PchipInterpolator(x, y, extrapolate=True)` at `t`: the
cubic Hermite piece selected by `findInterval`, so out-of-range queries are
answered by the polynomial tail of the boundary piece, never by a fill
value. -/
def pchipEval (x y : List ℚ) (t : ℚ) : ℚ :=
  hermiteSegment x y (findInterval x t) t

/-- The interpolant object `signal_interpolate` builds: either
`PchipInterpolator(x, y, extrapolate=True)` or
`interp1d(x, y, kind, bounds_error=False, fill_value=(fillLow, fillHigh))`. -/
inductive Kernel
  | pchip (x y : List ℚ)
  | i1 (x y : List ℚ) (kind : I1Kind) (fillLow fillHigh : ℚ)
  deriving DecidableEq

/-- Whether `method` selects the PCHIP branch of the source: a string whose
lower-casing is `monotone_cubic` (line 72 of `signal_interpolate.py`). -/
def isMonotoneB : Method → Bool
  | Method.str s => decide (lowerStr s = "monotone_cubic")
  | Method.order _ => false

/-- Kernel construction, `signal_interpolate.py` lines 71–77: the
`monotone_cubic` string (case-insensitively) selects
`PchipInterpolator(x_values, y_values, extrapolate=True)`; every other
method is passed to `interp1d(x_values, y_values, kind=method,
bounds_error=False, fill_value=([y_values[0]], [y_values[-1]]))`.
Construction fails for an unknown kind string, or when the kind's minimum
sample count is not met — in particular a spline of order `k` needs
`k + 1 ≤ len(x)`, so order ≥ sample count fails; `PchipInterpolator`
requires at least two strictly increasing abscissae. -/
def constructKernel (x y : List ℚ) (m : Method) : Except NKError Kernel :=
  match m with
  | Method.str s =>
      if lowerStr s = "monotone_cubic" then
        if 2 ≤ x.length ∧ strictIncr x = true then Except.ok (Kernel.pchip x y)
        else Except.error NKError.constructionError
      else
        match kindOfStr s with
        | Option.none => Except.error NKError.constructionError
        | Option.some kind =>
            if kind.minval ≤ x.length then
              Except.ok (Kernel.i1 x y kind (headEl y) (lastEl y))
            else Except.error NKError.constructionError
  | Method.order k =>
      if (I1Kind.spline k).minval ≤ x.length then
        Except.ok (Kernel.i1 x y (I1Kind.spline k) (headEl y) (lastEl y))
      else Except.error NKError.constructionError

/-- Evaluation of a constructed interpolant at one target position.
`interp1d` with `bounds_error=False` and a scalar fill pair returns
`fillLow` strictly below the smallest abscissa and `fillHigh` strictly
above the largest (flat extrapolation); strictly in range it applies the
kind's mathematical kernel, supplied as the parameter `inR`.  The PCHIP
kernel always evaluates the selected cubic piece. -/
def Kernel.eval (inR : I1Kind → List ℚ → List ℚ → ℚ → ℚ) : Kernel → ℚ → ℚ
  | Kernel.pchip x y, t => pchipEval x y t
  | Kernel.i1 x y kind lo hi, t =>
      if t < listMin x then lo
      else if listMax x < t then hi
      else inR kind x y t

/-- `np.linspace(a, b, n)`: `n` evenly spaced points from `a` to `b` with
both endpoints included (`[]` for `n = 0`, `[a]` for `n = 1`). -/
def linspace (a b : ℚ) (n : ℕ) : List ℚ :=
  if n = 0 then []
  else if n = 1 then [a]
  else (List.range n).map fun i : ℕ => a + (i : ℚ) * (b - a) / ((n : ℚ) - 1)

/-- Shallow embedding of
`signal_interpolate(x_values, y_values, x_new, method)`.  The structure
mirrors the source: the length sanity check first (lines 60–62); then the
count short-circuit (lines 64–69) — an integer `x_new` equal to
`len(x_values)`, or any other `x_new` whose `len` equals `len(x_values)`,
returns `y_values` unchanged, and `len(None)` in that same `else` branch
raises `TypeError`; then kernel construction (lines 71–77); then expansion
of an integer `x_new` by `np.linspace` over `[x_values[0], x_values[-1]]`
(lines 79–80) and evaluation of the interpolant at every target position
(line 82).  `inR` supplies the in-range mathematics of the `interp1d`
kinds; every theorem below holds for all `inR`. -/
def signal_interpolate (inR : I1Kind → List ℚ → List ℚ → ℚ → ℚ)
    (x_values y_values : List ℚ) (x_new : XNew) (method : Method) :
    Except NKError (List ℚ) :=
  if x_values.length ≠ y_values.length then Except.error NKError.lengthMismatch
  else
    match x_new with
    | XNew.count n =>
        if x_values.length = n then Except.ok y_values
        else
          match constructKernel x_values y_values method with
          | Except.error e => Except.error e
          | Except.ok k =>
              Except.ok
                ((linspace (headEl x_values) (lastEl x_values) n).map (Kernel.eval inR k))
    | XNew.positions xs =>
        if x_values.length = xs.length then Except.ok y_values
        else
          match constructKernel x_values y_values method with
          | Except.error e => Except.error e
          | Except.ok k => Except.ok (xs.map (Kernel.eval inR k))
    | XNew.none => Except.error NKError.typeError

/-- Result of one elementwise numpy division `60 / period[i]` under IEEE
semantics: the positive finite numerator divided by zero is `+inf`, and by
any nonzero finite value is finite (held exactly as a rational — rounding
does not affect sign or infinity). -/
inductive FloatVal
  | finite (q : ℚ)
  | posInf
  deriving DecidableEq

/-- The conversion `60 / period` applied to one period element. -/
def rateOf (p : ℚ) : FloatVal :=
  if p = 0 then FloatVal.posInf else FloatVal.finite (60 / p)

/-- Shallow embedding of `signal_rate(peaks, sampling_rate, desired_length,
interpolation_method)`: obtain the period array from the external
Period-Provider `signal_period` (a parameter of the model — the
collaborator lives outside this core) and convert it elementwise with
`rate = 60 / period`. -/
def signal_rate (signal_period : List ℤ → ℕ → Option ℕ → Method → List ℚ)
    (peaks : List ℤ) (sampling_rate : ℕ) (desired_length : Option ℕ)
    (interpolation_method : Method) : List FloatVal :=
  (signal_period peaks sampling_rate desired_length interpolation_method).map rateOf

/-- Trivial instantiation of the scipy-internal in-range evaluator, used
only to evaluate the model on concrete inputs. -/
def zeroKernel : I1Kind → List ℚ → List ℚ → ℚ → ℚ :=
  fun _ _ _ _ => 0

deriving instance DecidableEq for Except

/-- Every `interp1d` kind requires at least one sample point. -/
theorem I1Kind.one_le_minval (kind : I1Kind) : 1 ≤ kind.minval := by
  cases kind <;> simp only [I1Kind.minval] <;> omega

/-- A successfully constructed non-PCHIP kernel is an `interp1d` object over
the original arrays with fill values `y[0]` and `y[-1]`, and at least one
sample point was present. -/
theorem constructKernel_not_monotone (x y : List ℚ) (m : Method) (k : Kernel)
    (hm : isMonotoneB m = false) (hk : constructKernel x y m = Except.ok k) :
    (∃ kind, k = Kernel.i1 x y kind (headEl y) (lastEl y)) ∧ 1 ≤ x.length := by
  cases m with
  | str s =>
      have hs : ¬ lowerStr s = "monotone_cubic" := by
        simpa [isMonotoneB] using hm
      simp only [constructKernel] at hk
      rw [if_neg hs] at hk
      cases hks : kindOfStr s with
      | none => simp only [hks] at hk; cases hk
      | some kind =>
          simp only [hks] at hk
          by_cases hmin : kind.minval ≤ x.length
          · rw [if_pos hmin] at hk
            cases hk
            exact ⟨⟨kind, rfl⟩, le_trans (I1Kind.one_le_minval kind) hmin⟩
          · rw [if_neg hmin] at hk; cases hk
  | order j =>
      simp only [constructKernel] at hk
      by_cases hmin : (I1Kind.spline j).minval ≤ x.length
      · rw [if_pos hmin] at hk
        cases hk
        exact ⟨⟨I1Kind.spline j, rfl⟩, le_trans (I1Kind.one_le_minval _) hmin⟩
      · rw [if_neg hmin] at hk; cases hk

/-- The `monotone_cubic` branch builds the PCHIP kernel whenever its input
requirements hold. -/
theorem constructKernel_monotone (x y : List ℚ) (m : Method)
    (hm : isMonotoneB m = true) (h2 : 2 ≤ x.length) (hsi : strictIncr x = true) :
    constructKernel x y m = Except.ok (Kernel.pchip x y) := by
  cases m with
  | order j => simp [isMonotoneB] at hm
  | str s =>
      have hs : lowerStr s = "monotone_cubic" := by
        simpa [isMonotoneB] using hm
      simp only [constructKernel]
      rw [if_pos hs, if_pos ⟨h2, hsi⟩]

/-- Past the sanity check and short-circuit, the integer-count branch is the
kernel-construction `match` followed by evaluation on the `linspace` grid. -/
theorem signal_interpolate_count_construct
    (inR : I1Kind → List ℚ → List ℚ → ℚ → ℚ) (x y : List ℚ) (n : ℕ) (m : Method)
    (hlen : x.length = y.length) (h : ¬ x.length = n) :
    signal_interpolate inR x y (XNew.count n) m =
      match constructKernel x y m with
      | Except.error e => Except.error e
      | Except.ok k =>
          Except.ok ((linspace (headEl x) (lastEl x) n).map (Kernel.eval inR k)) := by
  unfold signal_interpolate
  rw [if_neg (not_not_intro hlen)]
  exact if_neg h

/-- Past the sanity check and short-circuit, the explicit-positions branch is
the kernel-construction `match` followed by evaluation at every target. -/
theorem signal_interpolate_positions_construct
    (inR : I1Kind → List ℚ → List ℚ → ℚ → ℚ) (x y xs : List ℚ) (m : Method)
    (hlen : x.length = y.length) (h : ¬ x.length = xs.length) :
    signal_interpolate inR x y (XNew.positions xs) m =
      match constructKernel x y m with
      | Except.error e => Except.error e
      | Except.ok k => Except.ok (xs.map (Kernel.eval inR k)) := by
  unfold signal_interpolate
  rw [if_neg (not_not_intro hlen)]
  exact if_neg h

/-- C1: for equal-length `x_values` and `y_values` and a resolved target
count equal to `len(x_values)` — `x_new` an integer equal to
`len(x_values)`, or `x_new` a sequence with `len(x_new) == len(x_values)` —
`signal_interpolate` returns `y_values` unchanged, for every interpolation
method and every in-range kernel, even when the positions in `x_new` differ
from `x_values`: the short-circuit compares cardinality only. -/
theorem C1_identity_shortcircuit
    (inR : I1Kind → List ℚ → List ℚ → ℚ → ℚ) (x_values y_values : List ℚ)
    (x_new : XNew) (method : Method)
    (hlen : x_values.length = y_values.length)
    (hnew : x_new = XNew.count x_values.length ∨
      ∃ xs, x_new = XNew.positions xs ∧ xs.length = x_values.length) :
    signal_interpolate inR x_values y_values x_new method = Except.ok y_values := by
  rcases hnew with h | ⟨xs, h, hxs⟩
  · subst h
    unfold signal_interpolate
    rw [if_neg (not_not_intro hlen)]
    exact if_pos rfl
  · subst h
    unfold signal_interpolate
    rw [if_neg (not_not_intro hlen)]
    exact if_pos hxs.symm

theorem C1_identity_shortcircuit_witness :
    signal_interpolate zeroKernel [0, 1, 2] [5, 6, 7] (XNew.positions [10, 20, 30])
      (Method.str ("cubic")) = Except.ok [5, 6, 7] :=
  C1_identity_shortcircuit zeroKernel [0, 1, 2] [5, 6, 7] (XNew.positions [10, 20, 30])
    (Method.str ("cubic")) (by decide) (Or.inr ⟨[10, 20, 30], rfl, by decide⟩)

/-- C2: whenever `len(x_values) != len(y_values)`, `signal_interpolate`
raises the length-mismatch error, for every method and every `x_new`
(including the default `None` and unknown methods), i.e. the check runs
before target-grid resolution and before kernel construction. -/
theorem C2_length_mismatch_first
    (inR : I1Kind → List ℚ → List ℚ → ℚ → ℚ) (x_values y_values : List ℚ)
    (x_new : XNew) (method : Method)
    (hlen : x_values.length ≠ y_values.length) :
    signal_interpolate inR x_values y_values x_new method =
      Except.error NKError.lengthMismatch := by
  unfold signal_interpolate
  exact if_pos hlen

theorem C2_length_mismatch_first_witness :
    signal_interpolate zeroKernel [0, 1] [5] XNew.none (Method.str ("bogus")) =
      Except.error NKError.lengthMismatch :=
  C2_length_mismatch_first zeroKernel [0, 1] [5] XNew.none (Method.str ("bogus")) (by decide)

/-- C9: when the resolved target count equals `len(x_values)`, the function
returns `y_values` before any kernel construction, so even a method whose
kernel construction would fail yields no error: the construction error is
unreachable on the short-circuit path. -/
theorem C9_shortcircuit_unreachable_construction
    (inR : I1Kind → List ℚ → List ℚ → ℚ → ℚ) (x_values y_values : List ℚ)
    (x_new : XNew) (method : Method)
    (hlen : x_values.length = y_values.length)
    (hnew : x_new = XNew.count x_values.length ∨
      ∃ xs, x_new = XNew.positions xs ∧ xs.length = x_values.length)
    (hfail : constructKernel x_values y_values method =
      Except.error NKError.constructionError) :
    signal_interpolate inR x_values y_values x_new method = Except.ok y_values := by
  rcases hnew with h | ⟨xs, h, hxs⟩
  · subst h
    unfold signal_interpolate
    rw [if_neg (not_not_intro hlen)]
    exact if_pos rfl
  · subst h
    unfold signal_interpolate
    rw [if_neg (not_not_intro hlen)]
    exact if_pos hxs.symm

theorem C9_shortcircuit_unreachable_construction_witness :
    signal_interpolate zeroKernel [0, 1] [1, 2] (XNew.positions [9, 9])
      (Method.str ("no_such_method")) = Except.ok [1, 2] :=
  C9_shortcircuit_unreachable_construction zeroKernel [0, 1] [1, 2]
    (XNew.positions [9, 9]) (Method.str ("no_such_method")) (by decide)
    (Or.inr ⟨[9, 9], rfl, by decide⟩) (by decide)

/-- C10: with equal-length `x_values`/`y_values`, calling the function with
`x_new` left at its default `None` fails with the `TypeError` raised when
the short-circuit check evaluates `len(x_new)`: the default is never a
valid input. -/
theorem C10_default_none_type_error
    (inR : I1Kind → List ℚ → List ℚ → ℚ → ℚ) (x_values y_values : List ℚ)
    (method : Method) (hlen : x_values.length = y_values.length) :
    signal_interpolate inR x_values y_values XNew.none method =
      Except.error NKError.typeError := by
  unfold signal_interpolate
  rw [if_neg (not_not_intro hlen)]

theorem C10_default_none_type_error_witness :
    signal_interpolate zeroKernel [0, 1, 2] [5, 6, 7] XNew.none (Method.str ("quadratic")) =
      Except.error NKError.typeError :=
  C10_default_none_type_error zeroKernel [0, 1, 2] [5, 6, 7] (Method.str ("quadratic"))
    (by decide)

/-- C8: when kernel construction fails (in particular for a spline order at
least the sample count), `signal_interpolate` returns exactly the
construction error — no retry, fallback or partial result; the second
conjunct instantiates this for every integer spline order `j ≥ len(x)`. -/
theorem C8_construction_error_propagation
    (inR : I1Kind → List ℚ → List ℚ → ℚ → ℚ) (x_values y_values : List ℚ)
    (x_new : XNew) (method : Method)
    (hlen : x_values.length = y_values.length)
    (hnew : (∃ n, x_new = XNew.count n ∧ ¬ x_values.length = n) ∨
      (∃ xs, x_new = XNew.positions xs ∧ ¬ x_values.length = xs.length))
    (hfail : constructKernel x_values y_values method =
      Except.error NKError.constructionError) :
    signal_interpolate inR x_values y_values x_new method =
      Except.error NKError.constructionError ∧
    ∀ j : ℕ, x_values.length ≤ j →
      signal_interpolate inR x_values y_values x_new (Method.order j) =
        Except.error NKError.constructionError := by
  have key : ∀ m' : Method,
      constructKernel x_values y_values m' = Except.error NKError.constructionError →
      signal_interpolate inR x_values y_values x_new m' =
        Except.error NKError.constructionError := by
    intro m' hf
    rcases hnew with ⟨n, hx, hne⟩ | ⟨xs, hx, hne⟩ <;> subst hx
    · rw [signal_interpolate_count_construct inR x_values y_values n m' hlen hne, hf]
    · rw [signal_interpolate_positions_construct inR x_values y_values xs m' hlen hne, hf]
  refine ⟨key method hfail, fun j hj => key (Method.order j) ?_⟩
  have hmin : ¬ (I1Kind.spline j).minval ≤ x_values.length := by
    simp only [I1Kind.minval]
    omega
  simp only [constructKernel]
  exact if_neg hmin

theorem C8_construction_error_propagation_witness :
    signal_interpolate zeroKernel [0, 1] [1, 2] (XNew.count 5) (Method.str ("quadratic")) =
      Except.error NKError.constructionError ∧
    signal_interpolate zeroKernel [0, 1] [1, 2] (XNew.count 5) (Method.order 2) =
      Except.error NKError.constructionError :=
  ⟨(C8_construction_error_propagation zeroKernel [0, 1] [1, 2] (XNew.count 5)
      (Method.str ("quadratic")) (by decide) (Or.inl ⟨5, rfl, by decide⟩) (by decide)).1,
   (C8_construction_error_propagation zeroKernel [0, 1] [1, 2] (XNew.count 5)
      (Method.str ("quadratic")) (by decide) (Or.inl ⟨5, rfl, by decide⟩) (by decide)).2
     2 (by decide)⟩

/-- `getD` through `List.map`, at an index in range. -/
theorem getD_map {α β : Type} (f : α → β) (l : List α) (i : ℕ) (d : α) (d' : β)
    (hi : i < l.length) : (l.map f).getD i d' = f (l.getD i d) := by
  rw [List.getD_eq_getElem?_getD, List.getD_eq_getElem?_getD, List.getElem?_map,
    List.getElem?_eq_getElem hi]
  rfl

/-- C5: `signal_rate` passes the period array returned by the
Period-Provider unchanged into the conversion step and returns the
elementwise `rate[i] = 60 / period[i]`, with output length and ordering
identical to the period array — for every provider and every argument. -/
theorem C5_rate_elementwise
    (signal_period : List ℤ → ℕ → Option ℕ → Method → List ℚ) (peaks : List ℤ)
    (sampling_rate : ℕ) (desired_length : Option ℕ) (interpolation_method : Method) :
    (signal_rate signal_period peaks sampling_rate desired_length interpolation_method).length
        = (signal_period peaks sampling_rate desired_length interpolation_method).length ∧
    ∀ i, i < (signal_period peaks sampling_rate desired_length interpolation_method).length →
      (signal_rate signal_period peaks sampling_rate desired_length
          interpolation_method).getD i (FloatVal.finite 0)
        = rateOf ((signal_period peaks sampling_rate desired_length
            interpolation_method).getD i 0) := by
  refine ⟨by simp [signal_rate], fun i hi => ?_⟩
  unfold signal_rate
  exact getD_map rateOf _ i 0 (FloatVal.finite 0) hi

theorem C5_rate_elementwise_witness :
    (signal_rate (fun _ _ _ _ => [2, 3]) [] 1000 Option.none
        (Method.str ("monotone_cubic"))).length = ([2, 3] : List ℚ).length ∧
    (signal_rate (fun _ _ _ _ => [2, 3]) [] 1000 Option.none
        (Method.str ("monotone_cubic"))).getD 0 (FloatVal.finite 0)
      = rateOf (([2, 3] : List ℚ).getD 0 0) :=
  ⟨(C5_rate_elementwise (fun _ _ _ _ => [2, 3]) [] 1000 Option.none
      (Method.str ("monotone_cubic"))).1,
   (C5_rate_elementwise (fun _ _ _ _ => [2, 3]) [] 1000 Option.none
      (Method.str ("monotone_cubic"))).2 0 (by decide)⟩

/-- C7: in `signal_rate`, a zero period element yields the infinite rate
value and a negative period element yields a negative (finite) rate value,
propagated untouched to the caller under IEEE division semantics — never
clamped, replaced by sentinels, or raised as errors. -/
theorem C7_ieee_zero_negative_periods
    (signal_period : List ℤ → ℕ → Option ℕ → Method → List ℚ) (peaks : List ℤ)
    (sampling_rate : ℕ) (desired_length : Option ℕ) (interpolation_method : Method)
    (i : ℕ)
    (hi : i < (signal_period peaks sampling_rate desired_length interpolation_method).length) :
    ((signal_period peaks sampling_rate desired_length interpolation_method).getD i 0 = 0 →
      (signal_rate signal_period peaks sampling_rate desired_length
          interpolation_method).getD i (FloatVal.finite 0) = FloatVal.posInf) ∧
    ((signal_period peaks sampling_rate desired_length interpolation_method).getD i 0 < 0 →
      ∃ q : ℚ, q < 0 ∧
        (signal_rate signal_period peaks sampling_rate desired_length
            interpolation_method).getD i (FloatVal.finite 0) = FloatVal.finite q) := by
  have hgd : (signal_rate signal_period peaks sampling_rate desired_length
        interpolation_method).getD i (FloatVal.finite 0)
      = rateOf ((signal_period peaks sampling_rate desired_length
          interpolation_method).getD i 0) :=
    getD_map rateOf _ i 0 (FloatVal.finite 0) hi
  constructor
  · intro h0
    rw [hgd]
    unfold rateOf
    rw [if_pos h0]
  · intro hneg
    refine ⟨60 / (signal_period peaks sampling_rate desired_length
        interpolation_method).getD i 0,
      div_neg_of_pos_of_neg (by norm_num) hneg, ?_⟩
    rw [hgd]
    unfold rateOf
    rw [if_neg (ne_of_lt hneg)]

theorem C7_ieee_zero_negative_periods_witness :
    (signal_rate (fun _ _ _ _ => [0, -2]) [] 1000 Option.none
        (Method.order 3)).getD 0 (FloatVal.finite 0) = FloatVal.posInf ∧
    ∃ q : ℚ, q < 0 ∧
      (signal_rate (fun _ _ _ _ => [0, -2]) [] 1000 Option.none
          (Method.order 3)).getD 1 (FloatVal.finite 0) = FloatVal.finite q :=
  ⟨(C7_ieee_zero_negative_periods (fun _ _ _ _ => [0, -2]) [] 1000 Option.none
      (Method.order 3) 0 (by decide)).1 (by decide),
   (C7_ieee_zero_negative_periods (fun _ _ _ _ => [0, -2]) [] 1000 Option.none
      (Method.order 3) 1 (by decide)).2 (by decide)⟩

/-- `np.linspace` produces exactly `n` points. -/
theorem linspace_length (a b : ℚ) (n : ℕ) : (linspace a b n).length = n := by
  unfold linspace
  by_cases h0 : n = 0
  · simp [h0]
  · by_cases h1 : n = 1
    · simp [h0, h1]
    · rw [if_neg h0, if_neg h1, List.length_map, List.length_range]

/-- The `i`-th `np.linspace` point, for a count of at least two. -/
theorem linspace_getD (a b : ℚ) (n i : ℕ) (h2 : 2 ≤ n) (hi : i < n) :
    (linspace a b n).getD i 0 = a + (i : ℚ) * (b - a) / ((n : ℚ) - 1) := by
  unfold linspace
  rw [if_neg (by omega), if_neg (by omega), List.getD_eq_getElem?_getD,
    List.getElem?_map, List.getElem?_range hi]
  rfl

/-- C6: when `x_new` is an integer `n` different from `len(x_values)`, the
constructed interpolant is evaluated at exactly `n` positions — the
`np.linspace` grid over `[x_values[0], x_values[-1]]`, both endpoints
included, consecutive points a constant step apart — producing one output
value per target position in grid order. -/
theorem C6_count_target_grid
    (inR : I1Kind → List ℚ → List ℚ → ℚ → ℚ) (x_values y_values : List ℚ)
    (n : ℕ) (method : Method) (k : Kernel)
    (hlen : x_values.length = y_values.length) (hne : ¬ x_values.length = n)
    (hk : constructKernel x_values y_values method = Except.ok k) :
    signal_interpolate inR x_values y_values (XNew.count n) method
      = Except.ok ((linspace (headEl x_values) (lastEl x_values) n).map (Kernel.eval inR k)) ∧
    (linspace (headEl x_values) (lastEl x_values) n).length = n ∧
    (2 ≤ n →
      (linspace (headEl x_values) (lastEl x_values) n).getD 0 0 = headEl x_values ∧
      (linspace (headEl x_values) (lastEl x_values) n).getD (n - 1) 0 = lastEl x_values ∧
      ∀ i, i + 1 < n →
        (linspace (headEl x_values) (lastEl x_values) n).getD (i + 1) 0
            - (linspace (headEl x_values) (lastEl x_values) n).getD i 0
          = (lastEl x_values - headEl x_values) / ((n : ℚ) - 1)) := by
  refine ⟨?_, linspace_length _ _ _, fun h2 => ⟨?_, ?_, fun i hi => ?_⟩⟩
  · rw [signal_interpolate_count_construct inR x_values y_values n method hlen hne, hk]
  · rw [linspace_getD _ _ _ _ h2 (by omega)]
    simp
  · rw [linspace_getD _ _ _ _ h2 (by omega)]
    have hn1 : ((n : ℚ) - 1) ≠ 0 := by
      have : (2 : ℚ) ≤ (n : ℚ) := by exact_mod_cast h2
      linarith
    have hc : ((n - 1 : ℕ) : ℚ) = (n : ℚ) - 1 := by
      have : 1 ≤ n := by omega
      push_cast [this]
      ring
    rw [hc]
    field_simp
  · rw [linspace_getD _ _ _ _ h2 hi, linspace_getD _ _ _ _ h2 (by omega)]
    have hn1 : ((n : ℚ) - 1) ≠ 0 := by
      have : (2 : ℚ) ≤ (n : ℚ) := by exact_mod_cast h2
      linarith
    push_cast
    field_simp
    ring

theorem C6_count_target_grid_witness :
    signal_interpolate zeroKernel [0, 4] [10, 20] (XNew.count 5) (Method.str ("linear"))
      = Except.ok ((linspace (headEl [0, 4]) (lastEl [0, 4]) 5).map
          (Kernel.eval zeroKernel (Kernel.i1 [0, 4] [10, 20] I1Kind.linear 10 20))) ∧
    (linspace (headEl [0, 4]) (lastEl [0, 4]) 5).length = 5 ∧
    (linspace (headEl [0, 4]) (lastEl [0, 4]) 5).getD 0 0 = headEl [0, 4] ∧
    (linspace (headEl [0, 4]) (lastEl [0, 4]) 5).getD 4 0 = lastEl [0, 4] ∧
    (linspace (headEl [0, 4]) (lastEl [0, 4]) 5).getD 1 0
        - (linspace (headEl [0, 4]) (lastEl [0, 4]) 5).getD 0 0
      = (lastEl [0, 4] - headEl [0, 4]) / (((5 : ℕ) : ℚ) - 1) :=
  ⟨(C6_count_target_grid zeroKernel [0, 4] [10, 20] 5 (Method.str ("linear"))
      (Kernel.i1 [0, 4] [10, 20] I1Kind.linear 10 20) (by decide) (by decide) (by decide)).1,
   (C6_count_target_grid zeroKernel [0, 4] [10, 20] 5 (Method.str ("linear"))
      (Kernel.i1 [0, 4] [10, 20] I1Kind.linear 10 20) (by decide) (by decide) (by decide)).2.1,
   ((C6_count_target_grid zeroKernel [0, 4] [10, 20] 5 (Method.str ("linear"))
      (Kernel.i1 [0, 4] [10, 20] I1Kind.linear 10 20) (by decide) (by decide) (by decide)).2.2
     (by decide)).1,
   ((C6_count_target_grid zeroKernel [0, 4] [10, 20] 5 (Method.str ("linear"))
      (Kernel.i1 [0, 4] [10, 20] I1Kind.linear 10 20) (by decide) (by decide) (by decide)).2.2
     (by decide)).2.1,
   ((C6_count_target_grid zeroKernel [0, 4] [10, 20] 5 (Method.str ("linear"))
      (Kernel.i1 [0, 4] [10, 20] I1Kind.linear 10 20) (by decide) (by decide) (by decide)).2.2
     (by decide)).2.2 0 (by decide)⟩

/-- `List.foldl max` is monotone in its initial accumulator. -/
theorem foldl_max_mono (t : List ℚ) :
    ∀ a b : ℚ, a ≤ b → t.foldl max a ≤ t.foldl max b := by
  induction t with
  | nil => intro a b h; simpa using h
  | cons c l ih =>
      intro a b h
      simp only [List.foldl_cons]
      exact ih _ _ (max_le_max h le_rfl)

/-- The running minimum of a list is at most its running maximum. -/
theorem foldl_min_le_foldl_max (t : List ℚ) :
    ∀ a : ℚ, t.foldl min a ≤ t.foldl max a := by
  induction t with
  | nil => intro a; simp
  | cons c l ih =>
      intro a
      simp only [List.foldl_cons]
      exact le_trans (ih _)
        (foldl_max_mono l _ _ (le_trans (min_le_left a c) (le_max_left a c)))

/-- For a nonempty list the smallest element is at most the largest. -/
theorem listMin_le_listMax (x : List ℚ) (hx : x ≠ []) : listMin x ≤ listMax x := by
  cases x with
  | nil => cases hx rfl
  | cons a l => exact foldl_min_le_foldl_max l a

/-- C3: with equal-length inputs, any method other than monotone-cubic whose
kernel construction succeeds, and an explicit target sequence of a different
length, the result is the interpolant evaluated at every target, and each
target strictly below the smallest abscissa yields exactly `y_values[0]`
while each target strictly above the largest yields exactly `y_values[-1]`
(flat extrapolation to the boundary values). -/
theorem C3_flat_extrapolation
    (inR : I1Kind → List ℚ → List ℚ → ℚ → ℚ) (x_values y_values xs : List ℚ)
    (method : Method) (k : Kernel)
    (hlen : x_values.length = y_values.length) (hne : ¬ x_values.length = xs.length)
    (hm : isMonotoneB method = false)
    (hk : constructKernel x_values y_values method = Except.ok k) :
    signal_interpolate inR x_values y_values (XNew.positions xs) method
      = Except.ok (xs.map (Kernel.eval inR k)) ∧
    ∀ i, i < xs.length →
      (xs.getD i 0 < listMin x_values →
        (xs.map (Kernel.eval inR k)).getD i 0 = headEl y_values) ∧
      (listMax x_values < xs.getD i 0 →
        (xs.map (Kernel.eval inR k)).getD i 0 = lastEl y_values) := by
  obtain ⟨⟨kind, hkind⟩, hx1⟩ :=
    constructKernel_not_monotone x_values y_values method k hm hk
  subst hkind
  refine ⟨?_, fun i hi => ⟨fun hlow => ?_, fun hhigh => ?_⟩⟩
  · rw [signal_interpolate_positions_construct inR x_values y_values xs method hlen hne, hk]
  · rw [getD_map _ xs i 0 0 hi]
    simp only [Kernel.eval]
    rw [if_pos hlow]
  · rw [getD_map _ xs i 0 0 hi]
    simp only [Kernel.eval]
    have hxne : x_values ≠ [] := by
      intro hnil
      rw [hnil] at hx1
      simp at hx1
    rw [if_neg (not_lt.2 (le_trans (listMin_le_listMax x_values hxne) (le_of_lt hhigh))),
      if_pos hhigh]

theorem C3_flat_extrapolation_witness :
    signal_interpolate zeroKernel [0, 1, 2] [5, 6, 7] (XNew.positions [-1, 5])
        (Method.str ("linear"))
      = Except.ok (([-1, 5] : List ℚ).map
          (Kernel.eval zeroKernel (Kernel.i1 [0, 1, 2] [5, 6, 7] I1Kind.linear 5 7))) ∧
    (([-1, 5] : List ℚ).map
        (Kernel.eval zeroKernel (Kernel.i1 [0, 1, 2] [5, 6, 7] I1Kind.linear 5 7))).getD 0 0
      = headEl [5, 6, 7] ∧
    (([-1, 5] : List ℚ).map
        (Kernel.eval zeroKernel (Kernel.i1 [0, 1, 2] [5, 6, 7] I1Kind.linear 5 7))).getD 1 0
      = lastEl [5, 6, 7] :=
  ⟨(C3_flat_extrapolation zeroKernel [0, 1, 2] [5, 6, 7] [-1, 5] (Method.str ("linear"))
      (Kernel.i1 [0, 1, 2] [5, 6, 7] I1Kind.linear 5 7)
      (by decide) (by decide) (by decide) (by decide)).1,
   ((C3_flat_extrapolation zeroKernel [0, 1, 2] [5, 6, 7] [-1, 5] (Method.str ("linear"))
      (Kernel.i1 [0, 1, 2] [5, 6, 7] I1Kind.linear 5 7)
      (by decide) (by decide) (by decide) (by decide)).2 0 (by decide)).1 (by decide),
   ((C3_flat_extrapolation zeroKernel [0, 1, 2] [5, 6, 7] [-1, 5] (Method.str ("linear"))
      (Kernel.i1 [0, 1, 2] [5, 6, 7] I1Kind.linear 5 7)
      (by decide) (by decide) (by decide) (by decide)).2 1 (by decide)).2 (by decide)⟩

/-- A list is unchanged by `takeWhile` when every element satisfies the
predicate. -/
theorem takeWhile_eq_self_of_forall (p : ℚ → Bool) (x : List ℚ)
    (h : ∀ a ∈ x, p a = true) : x.takeWhile p = x := by
  induction x with
  | nil => rfl
  | cons a l ih =>
      rw [List.takeWhile_cons, h a (List.mem_cons_self a l)]
      simp [ih fun b hb => h b (List.mem_cons_of_mem a hb)]

/-- Every element of a strictly increasing list is at most its last
element. -/
theorem strictIncr_le_lastEl (x : List ℚ) :
    strictIncr x = true → ∀ a ∈ x, a ≤ lastEl x := by
  induction x with
  | nil => intro _ a ha; cases ha
  | cons b l ih =>
      intro hsi a ha
      cases l with
      | nil =>
          rcases List.mem_cons.1 ha with h | h
          · subst h; exact le_rfl
          · cases h
      | cons c l2 =>
          have hsi2 : b < c ∧ strictIncr (c :: l2) = true := by
            simpa [strictIncr, Bool.and_eq_true, decide_eq_true_eq] using hsi
          rcases List.mem_cons.1 ha with h | h
          · subst h
            exact le_trans (le_of_lt hsi2.1) (ih hsi2.2 c (List.mem_cons_self c l2))
          · exact ih hsi2.2 a h

/-- Queries strictly left of the first breakpoint select piece 0. -/
theorem findInterval_lt_headEl (x : List ℚ) (t : ℚ) (h : t < headEl x) :
    findInterval x t = 0 := by
  cases x with
  | nil => rfl
  | cons a l =>
      unfold findInterval
      rw [List.takeWhile_cons]
      have hd : decide (a ≤ t) = false := by
        simp only [decide_eq_false_iff_not, not_le]
        exact h
      rw [hd]
      simp

/-- Queries strictly right of the last breakpoint select the final piece. -/
theorem findInterval_gt_lastEl (x : List ℚ) (t : ℚ) (hsi : strictIncr x = true)
    (h : lastEl x < t) : findInterval x t = x.length - 2 := by
  unfold findInterval
  rw [takeWhile_eq_self_of_forall _ x fun a ha =>
    decide_eq_true (le_of_lt (lt_of_le_of_lt (strictIncr_le_lastEl x hsi a ha) h))]
  exact Nat.min_eq_right (Nat.sub_le_sub_left (by omega) _)

/-- C4: a `monotone_cubic` method (matched case-insensitively) builds the
monotonicity-preserving piecewise-cubic Hermite (PCHIP) interpolant with
extrapolation enabled by the kernel itself: every target — also each one
outside `[x_values[0], x_values[-1]]` — is evaluated by `pchipEval`, and
out-of-range targets are answered by the boundary piece's cubic polynomial
(the polynomial tail), never clamped to the boundary values, unlike all
other methods. -/
theorem C4_monotone_cubic_pchip_tail
    (inR : I1Kind → List ℚ → List ℚ → ℚ → ℚ) (x_values y_values xs : List ℚ)
    (method : Method)
    (hlen : x_values.length = y_values.length) (hne : ¬ x_values.length = xs.length)
    (hm : isMonotoneB method = true) (h2 : 2 ≤ x_values.length)
    (hsi : strictIncr x_values = true) :
    signal_interpolate inR x_values y_values (XNew.positions xs) method
      = Except.ok (xs.map (pchipEval x_values y_values)) ∧
    (∀ t : ℚ, t < headEl x_values →
      pchipEval x_values y_values t = hermiteSegment x_values y_values 0 t) ∧
    (∀ t : ℚ, lastEl x_values < t →
      pchipEval x_values y_values t
        = hermiteSegment x_values y_values (x_values.length - 2) t) := by
  refine ⟨?_, fun t ht => ?_, fun t ht => ?_⟩
  · rw [signal_interpolate_positions_construct inR x_values y_values xs method hlen hne,
      constructKernel_monotone x_values y_values method hm h2 hsi]
    exact congrArg (fun f => Except.ok (xs.map f))
      (funext fun u => rfl : Kernel.eval inR (Kernel.pchip x_values y_values)
        = pchipEval x_values y_values)
  · unfold pchipEval
    rw [findInterval_lt_headEl x_values t ht]
  · unfold pchipEval
    rw [findInterval_gt_lastEl x_values t hsi ht]

theorem C4_monotone_cubic_pchip_tail_witness :
    signal_interpolate zeroKernel [0, 1, 2] [0, 1, 0] (XNew.positions [3, -1])
        (Method.str ("Monotone_Cubic"))
      = Except.ok (([3, -1] : List ℚ).map (pchipEval [0, 1, 2] [0, 1, 0])) ∧
    pchipEval [0, 1, 2] [0, 1, 0] (-1) = hermiteSegment [0, 1, 2] [0, 1, 0] 0 (-1) ∧
    pchipEval [0, 1, 2] [0, 1, 0] 3 = hermiteSegment [0, 1, 2] [0, 1, 0] 1 3 :=
  ⟨(C4_monotone_cubic_pchip_tail zeroKernel [0, 1, 2] [0, 1, 0] [3, -1]
      (Method.str ("Monotone_Cubic")) (by decide) (by decide) (by decide) (by decide)
      (by decide)).1,
   (C4_monotone_cubic_pchip_tail zeroKernel [0, 1, 2] [0, 1, 0] [3, -1]
      (Method.str ("Monotone_Cubic")) (by decide) (by decide) (by decide) (by decide)
      (by decide)).2.1 (-1) (by decide),
   (C4_monotone_cubic_pchip_tail zeroKernel [0, 1, 2] [0, 1, 0] [3, -1]
      (Method.str ("Monotone_Cubic")) (by decide) (by decide) (by decide) (by decide)
      (by decide)).2.2 3 (by decide)⟩

end NeuroKit
